import Mathlib

/-!
Verification development for the pandiver PDF-parsing repository.

The backend extraction module (pdf_processor) and the frontend table
components are embedded shallowly below.  Machine floats of the source
are modelled by rational numbers, Python and JavaScript strings by the
Lean String type (or by lists of characters where character-level
reasoning is needed), and code that can raise exceptions by the Except
monad over an error record carrying the exception message.
-/

/-- Coordinates of word boxes; the source uses machine floats, modelled
here by rationals. -/
abbrev Coord := ℚ

/-- One recognized text token with its bounding box, as produced by the
word extractors of pdf_processor (text, x0, y0, x1, y1, page). -/
structure WordBox where
  text : String
  x0 : Coord
  y0 : Coord
  x1 : Coord
  y1 : Coord
  page : Nat
deriving DecidableEq

/-- A word dictionary as rebuilt inside cluster_words_into_rows: a copy
of the incoming word with the additional key mid_y. -/
structure MidWord where
  word : WordBox
  mid_y : Coord
deriving DecidableEq

/-- The copy made for each word in cluster_words_into_rows:
mid_y = (word.get("y0", 0) + word.get("y1", 0)) / 2, and in this model a
word box always carries its y0 and y1 fields. -/
def addMidY (w : WordBox) : MidWord :=
  { word := w, mid_y := (w.y0 + w.y1) / 2 }

/-- Stable insertion of an element into a list that is sorted by the
given key: the element is placed before every element whose key is not
strictly smaller.  Together with stableSortByKey this models the stable
Python list.sort(key=...). -/
def insertByKey {α : Type} (key : α → Coord) (x : α) : List α → List α
  | [] => [x]
  | y :: ys => if key y < key x then y :: insertByKey key x ys else x :: y :: ys

/-- Stable sort by a rational key, modelling Python list.sort(key=...):
equal keys keep their original relative order. -/
def stableSortByKey {α : Type} (key : α → Coord) : List α → List α
  | [] => []
  | x :: xs => insertByKey key x (stableSortByKey key xs)

/-- Sort key used for words inside a row:
lambda w: w.get("x0", 0) (both row-closing sorts of the source). -/
def xKey (w : MidWord) : Coord := w.word.x0

/-- Sort key used for the words_with_midy list: lambda w: w["mid_y"]. -/
def midKey (w : MidWord) : Coord := w.mid_y

/-- Sort key applied to a finished row at the end of
cluster_words_into_rows: lambda row: row[0]["mid_y"] if row else 0. -/
def rowKey (row : List MidWord) : Coord :=
  match row with
  | [] => 0
  | w :: _ => w.mid_y

/-- The running value maintained in the source variable current_row_y
after a fold: sum(w["mid_y"] for w in current_row) / len(current_row). -/
def runningAverage (row : List MidWord) : Coord :=
  (row.map MidWord.mid_y).sum / (row.length : Coord)

/-- The main loop of cluster_words_into_rows over the sorted
words_with_midy list.  State: accumulated rows, current_row and
current_row_y (None before the first word).  A word is folded into the
current row when current_row_y is None or the absolute difference is at
most the tolerance, in which case current_row_y becomes word_y (None
case) or the recomputed average of the grown row; otherwise the current
row is sorted by x0, appended to rows, and a fresh row is started. -/
def clusterWalk (tolerance : Coord) :
    List MidWord → List (List MidWord) → List MidWord → Option Coord → List (List MidWord)
  | [], rows, current_row, _ =>
      if current_row = [] then rows
      else rows ++ [stableSortByKey xKey current_row]
  | w :: ws, rows, current_row, current_row_y =>
      match current_row_y with
      | none =>
          clusterWalk tolerance ws rows (current_row ++ [w]) (some w.mid_y)
      | some y =>
          if |w.mid_y - y| ≤ tolerance then
            clusterWalk tolerance ws rows (current_row ++ [w])
              (some (runningAverage (current_row ++ [w])))
          else
            clusterWalk tolerance ws
              (if current_row = [] then rows
               else rows ++ [stableSortByKey xKey current_row])
              [w] (some w.mid_y)

/-- cluster_words_into_rows of pdf_processor: empty input short-circuits
to []; otherwise each word is copied with its vertical midpoint mid_y,
the copies are stably sorted by mid_y, the walk groups them into rows,
and the rows are finally sorted by the mid_y of their first word.
The try/except wrapper of the source is omitted: on these inputs no
operation of the body can raise. -/
def cluster_words_into_rows (words : List WordBox) (tolerance : Coord) :
    List (List MidWord) :=
  if words = [] then []
  else
    stableSortByKey rowKey
      (clusterWalk tolerance (stableSortByKey midKey (words.map addMidY)) [] [] none)

/-- The walk as the specification sentence describes it: walk the sorted
sequence and start a new row exactly when the running average mid_y of
the current row differs from the incoming word's mid_y by more than the
tolerance; otherwise fold the word into the current row (the running
average is recomputed from the whole row rather than kept incrementally,
and the comparison is never against the first word's midpoint alone). -/
def clusterWalkSpec (tolerance : Coord) :
    List MidWord → List (List MidWord) → List MidWord → List (List MidWord)
  | [], rows, current_row =>
      if current_row = [] then rows
      else rows ++ [stableSortByKey xKey current_row]
  | w :: ws, rows, current_row =>
      if current_row = [] then
        clusterWalkSpec tolerance ws rows [w]
      else if |runningAverage current_row - w.mid_y| > tolerance then
        clusterWalkSpec tolerance ws
          (rows ++ [stableSortByKey xKey current_row]) [w]
      else
        clusterWalkSpec tolerance ws rows (current_row ++ [w])

/-- cluster_words_into_rows as described by the specification text,
built on clusterWalkSpec; the midpoint computation, the stable sort by
midpoint, the within-row x0 sort and the final row ordering are shared
with the implementation. -/
def cluster_words_into_rows_spec (words : List WordBox) (tolerance : Coord) :
    List (List MidWord) :=
  if words = [] then []
  else
    stableSortByKey rowKey
      (clusterWalkSpec tolerance (stableSortByKey midKey (words.map addMidY)) [] [])

/-- A raised Python exception, abstracted to its message string. -/
structure PyError where
  msg : String
deriving DecidableEq

/-- is_digital_page of pdf_processor.  Its input is the outcome of
page.extract_text(), which either returns the embedded text or raises.
Source: try: text = page.extract_text(); return bool(text and
text.strip()) except Exception: return False.  The result type Except
keeps the possibility of propagating an exception expressible, the
actual body never uses it. -/
def is_digital_page (extraction : Except PyError String) : Except PyError Bool :=
  match extraction with
  | .ok text => .ok (decide (text ≠ "") && decide (text.trim ≠ ""))
  | .error _ => .ok false

/-- A rasterized page image, abstracted to the outcome OCR would
produce on it (the only use the source makes of an image is to feed it
to extract_words_scanned). -/
abbrev OcrImage := Except PyError (List WordBox)

/-- convert_pdf_to_images of pdf_processor: raises a plain Exception
when the pdf2image dependency is missing; otherwise runs
convert_from_bytes (abstracted as the conversion argument) and wraps
any failure of it in a new Exception with the prefix shown. -/
def convert_pdf_to_images (pdf2imageAvailable : Bool)
    (conversion : Except PyError (List OcrImage)) : Except PyError (List OcrImage) :=
  if !pdf2imageAvailable then
    .error ⟨"pdf2image not available for PDF to image conversion"⟩
  else
    match conversion with
    | .ok images => .ok images
    | .error e => .error ⟨"Error converting PDF to images: " ++ e.msg⟩

/-- extract_words_scanned of pdf_processor: raises a plain Exception
when the docTR dependency is missing; otherwise runs OCR on the page
image (abstracted by the OcrImage) and wraps any failure in a new
Exception with the prefix shown. -/
def extract_words_scanned (doctrAvailable : Bool) (image : OcrImage) :
    Except PyError (List WordBox) :=
  if !doctrAvailable then
    .error ⟨"docTR not available for OCR processing"⟩
  else
    match image with
    | .ok ws => .ok ws
    | .error e => .error ⟨"Error extracting words from scanned PDF: " ++ e.msg⟩

/-- The per-page loop of extract_all_words, with page_num counted from
one as in the source's enumerate(pdf.pages, 1).  Each page is given as
(is_digital, digital word list); extract_words_digital is abstracted as
the successful digital word list.  For a scanned page the source takes
images[page_num - 1] when images is non-empty and page_num does not
exceed len(images), and otherwise falls back to an empty word list; any
exception escapes to the caller. -/
def extractAllWordsLoop (doctrAvailable : Bool) (images : List OcrImage) :
    Nat → List (Bool × List WordBox) → Except PyError (List WordBox)
  | _, [] => .ok []
  | page_num, (is_digital, digitalWords) :: rest =>
      let wordsE : Except PyError (List WordBox) :=
        if is_digital then .ok digitalWords
        else if images.length ≠ 0 then
          if page_num ≤ images.length then
            extract_words_scanned doctrAvailable (images.getD (page_num - 1) (.ok []))
          else .ok []
        else .ok []
      match wordsE with
      | .error e => .error e
      | .ok ws =>
          match extractAllWordsLoop doctrAvailable images (page_num + 1) rest with
          | .error e => .error e
          | .ok restWords => .ok (ws ++ restWords)

/-- extract_all_words of pdf_processor: computes the scanned pages from
the page analysis, converts the document to images only when some page
is scanned, runs the per-page loop, and wraps any exception raised by
the body in a new Exception with the prefix shown (the except-branch of
the source re-raises; it does not fall back to a partial result). -/
def extract_all_words (pdf2imageAvailable doctrAvailable : Bool)
    (pages : List (Bool × List WordBox))
    (conversion : Except PyError (List OcrImage)) : Except PyError (List WordBox) :=
  let scanned_pages := pages.filter (fun p => !p.1)
  let imagesE : Except PyError (List OcrImage) :=
    if scanned_pages ≠ [] then convert_pdf_to_images pdf2imageAvailable conversion
    else .ok []
  let body : Except PyError (List WordBox) :=
    match imagesE with
    | .error e => .error e
    | .ok images => extractAllWordsLoop doctrAvailable images 1 pages
  match body with
  | .ok ws => .ok ws
  | .error e => .error ⟨"Error extracting all words: " ++ e.msg⟩

/-- A point of the rectangle-selection overlay, in page points. -/
structure SelPoint where
  x : Coord
  y : Coord
deriving DecidableEq

/-- Rendered page dimensions, as held in the pageDims state. -/
structure PageDims where
  width : Coord
  height : Coord
deriving DecidableEq

/-- Outcome of handleOverlayMouseUp in the bank-statement-parser page:
either the selection state was incomplete, or the selection was rejected
as too small before any extraction work, or an extraction request with
the given rectangle is sent to the backend. -/
inductive SelectionOutcome where
  | notCompleted : SelectionOutcome
  | selectionTooSmall : SelectionOutcome
  | extractRequest (x y width height : Coord) : SelectionOutcome
deriving DecidableEq

/-- handleOverlayMouseUp of the bank-statement-parser page, reduced to
the decision it makes before any network request: incomplete state is
rejected; then width and height of the dragged rectangle are computed
and the selection is rejected when width < 10 or height < 10; only
otherwise is the extract-text-region request issued. -/
def handleOverlayMouseUp (isSelecting : Bool)
    (selectionStart selectionEnd : Option SelPoint)
    (pageDims : Option PageDims) : SelectionOutcome :=
  match isSelecting, selectionStart, selectionEnd, pageDims with
  | true, some s, some e, some _ =>
      let minX := min s.x e.x
      let minY := min s.y e.y
      let width := |e.x - s.x|
      let height := |e.y - s.y|
      if width < 10 ∨ height < 10 then .selectionTooSmall
      else .extractRequest minX minY width height
  | _, _, _, _ => .notCompleted

/-- The transpose helper of the bank-statement-parser page: turns the
per-column data arrays of extract-multi-page-columns into rows, using
the greatest column length and filling missing cells with the empty
string (a[i] || ""). -/
def transpose (arrays : List (List String)) : List (List String) :=
  if arrays.length = 0 then []
  else
    let maxLen := (arrays.map List.length).foldr max 0
    (List.range maxLen).map (fun i => arrays.map (fun a => a.getD i ""))

/-- The cell-count fixup of one row in the DataTable effect: rows with
too few cells are padded with fresh empty cells, rows with too many are
truncated, so the cell count matches the header count.  Cells are
modelled by their content. -/
def fixRowCells (headerCount : Nat) (cells : List String) : List String :=
  if cells.length < headerCount then
    cells ++ List.replicate (headerCount - cells.length) ""
  else if headerCount < cells.length then cells.take headerCount
  else cells

/-- The DataTable effect that fixes every row to the header count (it
runs when the header count is positive and there is at least one row). -/
def fixRowStructure (headerCount : Nat) (rows : List (List String)) :
    List (List String) :=
  rows.map (fixRowCells headerCount)

/-- handleAddToTable of the bank-statement-parser page, structured-data
branch: with an empty table the extracted headers and rows are adopted;
otherwise the extracted headers are appended and every existing row is
extended with the extracted row of the same index
(extractedTableData.data?.[index] || []). -/
def handleAddToTable (tableHeaders : List String) (tableRows : List (List String))
    (extHeaders : List String) (extData : List (List String)) :
    List String × List (List String) :=
  if tableHeaders.length = 0 then (extHeaders, extData)
  else
    (tableHeaders ++ extHeaders,
     tableRows.enum.map (fun p => p.2 ++ extData.getD p.1 []))

/-- Does the haystack start with the needle?  Character-level model of
the JavaScript startsWith comparison underlying includes. -/
def startsWithSeq : List Char → List Char → Bool
  | [], _ => true
  | _ :: _, [] => false
  | a :: ns, b :: hs => a = b && startsWithSeq ns hs

/-- JavaScript String.prototype.includes on character lists: the needle
occurs contiguously somewhere in the haystack. -/
def includesSeq : List Char → List Char → Bool
  | [], needle => startsWithSeq needle []
  | h :: t, needle => startsWithSeq needle (h :: t) || includesSeq t needle

/-- JavaScript String.prototype.trim on character lists: leading and
trailing whitespace removed. -/
def jsTrim (s : List Char) : List Char :=
  ((s.dropWhile Char.isWhitespace).reverse.dropWhile Char.isWhitespace).reverse

/-- The single-block drop handler of DroppableCell in DataTable: the
dropped text and the cell content are trimmed; a non-empty cell that
does not already contain the dropped text gets it appended on a new
line; a non-empty cell that already contains it is left untouched (the
handler returns without an update); an empty (after trimming) cell is
replaced by the trimmed dropped text. -/
def dropSingleBlock (cellContent itemText : List Char) : List Char :=
  if jsTrim cellContent ≠ [] ∧
      ¬ (includesSeq (jsTrim cellContent) (jsTrim itemText) = true) then
    jsTrim cellContent ++ '\n' :: jsTrim itemText
  else if jsTrim cellContent ≠ [] ∧
      includesSeq (jsTrim cellContent) (jsTrim itemText) = true then
    cellContent
  else jsTrim itemText

/-- The table state of the EditableTable component, rows of cell
contents (the originalBlock annotation plays no part in the removal
operations). -/
structure EditableTableState where
  tableData : List (List String)
deriving DecidableEq

/-- removeRow of EditableTable: guarded by tableData.length > 1, the row
at the given index is filtered out ((_, idx) => idx !== rowIndex). -/
def removeRow (s : EditableTableState) (rowIndex : Nat) : EditableTableState :=
  if 1 < s.tableData.length then
    ⟨(s.tableData.enum.filter (fun p => decide (p.1 ≠ rowIndex))).map Prod.snd⟩
  else s

/-- removeColumn of EditableTable: guarded by tableData[0].length > 1
(the first row, modelled with headD for the out-of-range case), the cell
at the given index is filtered out of every row. -/
def removeColumn (s : EditableTableState) (colIndex : Nat) : EditableTableState :=
  if 1 < (s.tableData.headD []).length then
    ⟨s.tableData.map (fun row =>
      (row.enum.filter (fun p => decide (p.1 ≠ colIndex))).map Prod.snd)⟩
  else s

/-- A removal operation on the editable table. -/
inductive EditOp where
  | row (i : Nat) : EditOp
  | col (i : Nat) : EditOp

/-- Apply one removal operation. -/
def applyEditOp (s : EditableTableState) : EditOp → EditableTableState
  | .row i => removeRow s i
  | .col i => removeColumn s i

/-- Apply a sequence of removal operations from left to right. -/
def applyEditOps (s : EditableTableState) : List EditOp → EditableTableState
  | [] => s
  | op :: ops => applyEditOps (applyEditOp s op) ops

/-- The shape invariant the EditableTable component maintains: at least
one row, at least one column, and all rows of equal length (the
component starts as a 3 by 3 grid and every operation preserves the
rectangular shape). -/
def RectInv (s : EditableTableState) : Prop :=
  0 < s.tableData.length ∧ 0 < (s.tableData.headD []).length ∧
    ∀ r ∈ s.tableData, r.length = (s.tableData.headD []).length

instance (s : EditableTableState) : Decidable (RectInv s) := by
  unfold RectInv; infer_instance

lemma perm_insertByKey {α : Type} (key : α → Coord) (x : α) (l : List α) :
    (insertByKey key x l).Perm (x :: l) := by
  induction l with
  | nil => simp [insertByKey]
  | cons y ys ih =>
      simp only [insertByKey]
      split
      · exact ((ih.cons y).trans (List.Perm.swap x y ys))
      · exact List.Perm.refl _

lemma perm_stableSortByKey {α : Type} (key : α → Coord) (l : List α) :
    (stableSortByKey key l).Perm l := by
  induction l with
  | nil => simp [stableSortByKey]
  | cons x xs ih =>
      simpa [stableSortByKey] using (perm_insertByKey key x _).trans (ih.cons x)

lemma stableSortByKey_ne_nil {α : Type} (key : α → Coord) (l : List α)
    (h : l ≠ []) : stableSortByKey key l ≠ [] := by
  intro hcon
  exact h (List.Perm.eq_nil ((perm_stableSortByKey key l).symm.trans (hcon ▸ List.Perm.refl _)))

lemma runningAverage_singleton (w : MidWord) : runningAverage [w] = w.mid_y := by
  simp [runningAverage]

lemma clusterWalk_eq_spec (tolerance : Coord) :
    ∀ (ws : List MidWord) (rows : List (List MidWord)) (cur : List MidWord)
      (y : Option Coord),
      (cur = [] ∧ y = none) ∨ (cur ≠ [] ∧ y = some (runningAverage cur)) →
      clusterWalk tolerance ws rows cur y = clusterWalkSpec tolerance ws rows cur := by
  intro ws
  induction ws with
  | nil =>
      intro rows cur y _
      simp [clusterWalk, clusterWalkSpec]
  | cons w ws ih =>
      intro rows cur y h
      rcases h with ⟨hcur, hy⟩ | ⟨hcur, hy⟩
      · subst hcur; subst hy
        simp only [clusterWalk, clusterWalkSpec, List.nil_append, if_pos rfl]
        exact ih rows [w] (some w.mid_y)
          (Or.inr ⟨by simp, by rw [runningAverage_singleton]⟩)
      · subst hy
        simp only [clusterWalk, clusterWalkSpec, if_neg hcur]
        have habs : |w.mid_y - runningAverage cur| ≤ tolerance ↔
            ¬ (|runningAverage cur - w.mid_y| > tolerance) := by
          rw [abs_sub_comm]; exact (not_lt).symm
        by_cases hc : |runningAverage cur - w.mid_y| > tolerance
        · rw [if_neg (by rw [habs]; exact not_not_intro hc), if_pos hc]
          exact ih _ [w] (some w.mid_y)
            (Or.inr ⟨by simp, by rw [runningAverage_singleton]⟩)
        · rw [if_pos (habs.mpr hc), if_neg hc]
          exact ih rows (cur ++ [w]) _ (Or.inr ⟨by simp, rfl⟩)

lemma clusterWalk_flatten_perm (tolerance : Coord) :
    ∀ (ws : List MidWord) (rows : List (List MidWord)) (cur : List MidWord)
      (y : Option Coord),
      (clusterWalk tolerance ws rows cur y).flatten.Perm
        (rows.flatten ++ (cur ++ ws)) := by
  intro ws
  induction ws with
  | nil =>
      intro rows cur y
      by_cases hcur : cur = []
      · subst hcur; simp [clusterWalk]
      · simp only [clusterWalk, if_neg hcur, List.flatten_append, List.append_nil]
        simpa using List.Perm.append (List.Perm.refl rows.flatten)
          (perm_stableSortByKey xKey cur)
  | cons w ws ih =>
      intro rows cur y
      match y with
      | none =>
          simp only [clusterWalk]
          refine (ih rows (cur ++ [w]) (some w.mid_y)).trans ?_
          simp
      | some yv =>
          simp only [clusterWalk]
          split
          · refine (ih rows (cur ++ [w]) _).trans ?_
            simp
          · by_cases hcur : cur = []
            · subst hcur
              simp only [if_pos rfl]
              refine (ih rows [w] (some w.mid_y)).trans ?_
              simp
            · rw [if_neg hcur]
              refine (ih _ [w] (some w.mid_y)).trans ?_
              simp only [List.flatten_append, List.flatten_cons, List.flatten_nil,
                List.append_nil, List.append_assoc, List.singleton_append]
              exact List.Perm.append (List.Perm.refl rows.flatten)
                (List.Perm.append (perm_stableSortByKey xKey cur) (List.Perm.refl _))

lemma clusterWalk_ne_nil (tolerance : Coord) :
    ∀ (ws : List MidWord) (rows : List (List MidWord)) (cur : List MidWord)
      (y : Option Coord),
      (∀ r ∈ rows, r ≠ []) →
      ∀ r ∈ clusterWalk tolerance ws rows cur y, r ≠ [] := by
  intro ws
  induction ws with
  | nil =>
      intro rows cur y hrows r hr
      by_cases hcur : cur = []
      · subst hcur; simp only [clusterWalk, if_pos rfl] at hr; exact hrows r hr
      · simp only [clusterWalk, if_neg hcur, List.mem_append, List.mem_singleton] at hr
        rcases hr with hr | hr
        · exact hrows r hr
        · subst hr; exact stableSortByKey_ne_nil xKey cur hcur
  | cons w ws ih =>
      intro rows cur y hrows r hr
      match y with
      | none => exact ih rows (cur ++ [w]) (some w.mid_y) hrows r hr
      | some yv =>
          simp only [clusterWalk] at hr
          revert hr
          split
          · intro hr; exact ih rows (cur ++ [w]) _ hrows r hr
          · intro hr
            by_cases hcur : cur = []
            · rw [if_pos hcur] at hr
              exact ih rows [w] (some w.mid_y) hrows r hr
            · rw [if_neg hcur] at hr
              refine ih _ [w] (some w.mid_y) ?_ r hr
              intro r2 hr2
              rcases List.mem_append.mp hr2 with h2 | h2
              · exact hrows r2 h2
              · rw [List.mem_singleton] at h2; subst h2
                exact stableSortByKey_ne_nil xKey cur hcur

lemma fixRowCells_length (headerCount : Nat) (cells : List String) :
    (fixRowCells headerCount cells).length = headerCount := by
  unfold fixRowCells
  split
  · rename_i h
    simp only [List.length_append, List.length_replicate]
    omega
  · split
    · rename_i h
      simp only [List.length_take]
      omega
    · omega

lemma transpose_row_length (arrays : List (List String)) (r : List String)
    (hr : r ∈ transpose arrays) : r.length = arrays.length := by
  unfold transpose at hr
  split at hr
  · simp at hr
  · obtain ⟨i, _, hi⟩ := List.mem_map.mp hr
    rw [← hi, List.length_map]

lemma mergedRow_getD (tr ed : List (List String)) (i : Nat) (hi : i < tr.length) :
    (tr.enum.map (fun p => p.2 ++ ed.getD p.1 [])).getD i [] =
      tr.getD i [] ++ ed.getD i [] := by
  have h1 : i < (tr.enum.map (fun p => p.2 ++ ed.getD p.1 [])).length := by
    simp [List.enum_length, hi]
  rw [List.getD_eq_getElem _ _ h1, List.getD_eq_getElem _ _ hi, List.getElem_map]
  rw [List.getElem_enum]

lemma startsWithSeq_self (l : List Char) : startsWithSeq l l = true := by
  induction l with
  | nil => rfl
  | cons c cs ih => simp [startsWithSeq, ih]

lemma includesSeq_nil_needle (hay : List Char) : includesSeq hay [] = true := by
  cases hay with
  | nil => rfl
  | cons h t => simp [includesSeq, startsWithSeq]

lemma includesSeq_self (l : List Char) : includesSeq l l = true := by
  cases l with
  | nil => rfl
  | cons h t => simp [includesSeq, startsWithSeq_self]

lemma includesSeq_append_left (pre hay needle : List Char)
    (h : includesSeq hay needle = true) :
    includesSeq (pre ++ hay) needle = true := by
  induction pre with
  | nil => simpa using h
  | cons c cs ih => simp [includesSeq, ih]

lemma includesSeq_sep_suffix (e t : List Char) :
    includesSeq (e ++ '\n' :: t) t = true := by
  apply includesSeq_append_left
  cases t with
  | nil => exact includesSeq_nil_needle _
  | cons d ds =>
      simp only [includesSeq, Bool.or_eq_true]
      exact Or.inr (Or.inl (startsWithSeq_self (d :: ds)))

lemma dropWhile_head_not {α : Type} (p : α → Bool) (l : List α) (c : α) (t : List α)
    (h : List.dropWhile p l = c :: t) : p c = false := by
  induction l with
  | nil => simp [List.dropWhile] at h
  | cons x xs ih =>
      rw [List.dropWhile_cons] at h
      by_cases hx : p x = true
      · exact ih (by rwa [if_pos hx] at h)
      · rw [if_neg hx] at h
        cases h
        exact Bool.eq_false_iff.mpr hx

lemma dropWhile_idem {α : Type} (p : α → Bool) (l : List α) :
    List.dropWhile p (List.dropWhile p l) = List.dropWhile p l := by
  cases h : List.dropWhile p l with
  | nil => rfl
  | cons c t =>
      rw [List.dropWhile_cons, if_neg]
      rw [dropWhile_head_not p l c t h]
      simp

lemma dropWhile_eq_self_of_head {α : Type} (p : α → Bool) (l : List α) (c : α)
    (hc : l.head? = some c) (hpc : p c = false) : List.dropWhile p l = l := by
  cases l with
  | nil => rfl
  | cons x xs =>
      simp only [List.head?_cons, Option.some.injEq] at hc
      subst hc
      rw [List.dropWhile_cons, if_neg (by simp [hpc])]

lemma getLast?_dropWhile {α : Type} (p : α → Bool) (l : List α)
    (h : List.dropWhile p l ≠ []) :
    (List.dropWhile p l).getLast? = l.getLast? := by
  obtain ⟨pre, hpre⟩ := List.dropWhile_suffix (l := l) p
  conv_rhs => rw [← hpre]
  rw [List.getLast?_append]
  have hsome : (List.dropWhile p l).getLast?.isSome = true := List.getLast?_isSome.mpr h
  cases hlast : (List.dropWhile p l).getLast? with
  | none => rw [hlast] at hsome; simp at hsome
  | some v => rfl

lemma jsTrim_reverse_dropWhile (s : List Char) :
    List.dropWhile Char.isWhitespace (jsTrim s).reverse = (jsTrim s).reverse := by
  unfold jsTrim
  rw [List.reverse_reverse]
  exact dropWhile_idem _ _

lemma jsTrim_dropWhile (s : List Char) :
    List.dropWhile Char.isWhitespace (jsTrim s) = jsTrim s := by
  cases hx : jsTrim s with
  | nil => rfl
  | cons c t =>
      have hhead : (jsTrim s).head? = some c := by rw [hx]; rfl
      have hds : List.dropWhile Char.isWhitespace s ≠ [] := by
        intro hnil
        rw [jsTrim, hnil] at hx
        simp at hx
      have hr :
          List.dropWhile Char.isWhitespace
            (List.dropWhile Char.isWhitespace s).reverse ≠ [] := by
        intro hnil
        rw [jsTrim, hnil] at hx
        simp at hx
      have hlast : (jsTrim s).head? = (List.dropWhile Char.isWhitespace s).head? := by
        unfold jsTrim
        rw [List.head?_reverse]
        rw [getLast?_dropWhile _ _ hr]
        exact List.getLast?_reverse _
      obtain ⟨c2, t2, hds2⟩ : ∃ c2 t2,
          List.dropWhile Char.isWhitespace s = c2 :: t2 := by
        cases hd : List.dropWhile Char.isWhitespace s with
        | nil => exact absurd hd hds
        | cons a b => exact ⟨a, b, rfl⟩
      have hceq : c = c2 := by
        rw [hx] at hlast
        rw [hds2] at hlast
        simpa using hlast
      have hwc : Char.isWhitespace c = false := by
        rw [hceq]
        exact dropWhile_head_not _ s c2 t2 hds2
      rw [← hx]
      exact dropWhile_eq_self_of_head _ _ c hhead hwc

lemma jsTrim_of_trimmed (x : List Char)
    (h1 : List.dropWhile Char.isWhitespace x = x)
    (h2 : List.dropWhile Char.isWhitespace x.reverse = x.reverse) :
    jsTrim x = x := by
  unfold jsTrim
  rw [h1, h2, List.reverse_reverse]

lemma jsTrim_idem (s : List Char) : jsTrim (jsTrim s) = jsTrim s :=
  jsTrim_of_trimmed _ (jsTrim_dropWhile s) (jsTrim_reverse_dropWhile s)

lemma jsTrim_head_not_ws (s : List Char) (c : Char) (t : List Char)
    (h : jsTrim s = c :: t) : Char.isWhitespace c = false := by
  have := jsTrim_dropWhile s
  rw [h] at this
  exact dropWhile_head_not _ _ _ _ this

lemma jsTrim_getLast_not_ws (s : List Char) (c : Char) (t : List Char)
    (h : (jsTrim s).reverse = c :: t) : Char.isWhitespace c = false := by
  have := jsTrim_reverse_dropWhile s
  rw [h] at this
  exact dropWhile_head_not _ _ _ _ this

lemma jsTrim_sep_append (a b : List Char)
    (ha : jsTrim a ≠ []) (hb : jsTrim b ≠ []) :
    jsTrim (jsTrim a ++ '\n' :: jsTrim b) = jsTrim a ++ '\n' :: jsTrim b := by
  apply jsTrim_of_trimmed
  · cases hx : jsTrim a with
    | nil => exact absurd hx ha
    | cons c t =>
        rw [List.cons_append]
        exact dropWhile_eq_self_of_head _ _ c rfl (jsTrim_head_not_ws a c t hx)
  · rw [List.reverse_append, List.reverse_cons]
    cases hy : (jsTrim b).reverse with
    | nil =>
        exact absurd (by simpa using congrArg List.reverse hy) hb
    | cons d t2 =>
        rw [List.append_assoc, List.cons_append]
        exact dropWhile_eq_self_of_head _ _ d rfl (jsTrim_getLast_not_ws b d t2 hy)

lemma enumFrom_filter_ne_map {α : Type} (k : Nat) :
    ∀ (l : List α) (n : Nat),
      ((List.enumFrom n l).filter (fun p => decide (p.1 ≠ k))).map Prod.snd =
        if k < n then l else l.eraseIdx (k - n) := by
  intro l
  induction l with
  | nil => intro n; simp
  | cons x xs ih =>
      intro n
      rw [List.enumFrom_cons]
      by_cases hnk : n = k
      · subst hnk
        rw [List.filter_cons_of_neg (by simp)]
        rw [ih (n + 1), if_pos (Nat.lt_succ_self n)]
        rw [if_neg (Nat.lt_irrefl n), Nat.sub_self, List.eraseIdx_cons_zero]
      · rw [List.filter_cons_of_pos (by simpa using hnk)]
        rw [List.map_cons, ih (n + 1)]
        by_cases hlt : k < n
        · rw [if_pos (Nat.lt_succ_of_lt hlt), if_pos hlt]
        · have hgt : n < k := Nat.lt_of_le_of_ne (Nat.le_of_not_lt hlt) hnk
          rw [if_neg (by omega), if_neg hlt]
          have : k - n = (k - (n + 1)) + 1 := by omega
          rw [this, List.eraseIdx_cons_succ]

lemma enum_filter_ne_map {α : Type} (l : List α) (k : Nat) :
    ((l.enum.filter (fun p => decide (p.1 ≠ k))).map Prod.snd) = l.eraseIdx k := by
  have := enumFrom_filter_ne_map k l 0
  simpa [List.enum] using this

lemma removeRow_eq (s : EditableTableState) (i : Nat) :
    removeRow s i =
      if 1 < s.tableData.length then ⟨s.tableData.eraseIdx i⟩ else s := by
  unfold removeRow
  rw [enum_filter_ne_map]

lemma removeColumn_eq (s : EditableTableState) (i : Nat) :
    removeColumn s i =
      if 1 < (s.tableData.headD []).length then
        ⟨s.tableData.map (fun row => row.eraseIdx i)⟩
      else s := by
  unfold removeColumn
  have hfun : (fun row : List String =>
      (row.enum.filter (fun p => decide (p.1 ≠ i))).map Prod.snd) =
      (fun row : List String => row.eraseIdx i) :=
    funext (fun row => enum_filter_ne_map row i)
  rw [hfun]

lemma mem_eraseIdx_length {α : Type} (l : List α) (i : Nat) (x : α)
    (hx : x ∈ l.eraseIdx i) : x ∈ l :=
  List.Sublist.mem hx (List.eraseIdx_sublist l i)

lemma headD_mem {α : Type} (l : List α) (d : α) (h : l ≠ []) : l.headD d ∈ l := by
  cases l with
  | nil => exact absurd rfl h
  | cons a t => simp [List.headD]

lemma removeRow_rectInv (s : EditableTableState) (i : Nat) (h : RectInv s) :
    RectInv (removeRow s i) := by
  rw [removeRow_eq]
  by_cases hlen : 1 < s.tableData.length
  · rw [if_pos hlen]
    obtain ⟨hpos, hcol, hall⟩ := h
    set n := (s.tableData.headD []).length with hn
    have hlen2 : 0 < (s.tableData.eraseIdx i).length := by
      rw [List.length_eraseIdx]
      split <;> omega
    have hne : s.tableData.eraseIdx i ≠ [] := by
      intro hcon; rw [hcon] at hlen2; simp at hlen2
    have hallnew : ∀ r ∈ s.tableData.eraseIdx i, r.length = n :=
      fun r hr => hall r (mem_eraseIdx_length _ _ _ hr)
    have hheadnew : ((s.tableData.eraseIdx i).headD []).length = n :=
      hallnew _ (headD_mem _ _ hne)
    refine ⟨hlen2, ?_, ?_⟩
    · rw [hheadnew]; omega
    · intro r hr
      rw [hheadnew]
      exact hallnew r hr
  · rw [if_neg hlen]; exact h

lemma removeColumn_rectInv (s : EditableTableState) (i : Nat) (h : RectInv s) :
    RectInv (removeColumn s i) := by
  rw [removeColumn_eq]
  by_cases hlen : 1 < (s.tableData.headD []).length
  · rw [if_pos hlen]
    obtain ⟨hpos, hcol, hall⟩ := h
    set n := (s.tableData.headD []).length with hn
    set m := if i < n then n - 1 else n with hm
    have hrowlen : ∀ r ∈ s.tableData, (r.eraseIdx i).length = m := by
      intro r hr
      rw [List.length_eraseIdx, hall r hr]
    have hne : s.tableData ≠ [] := by
      intro hcon; rw [hcon] at hpos; simp at hpos
    have hheadnew :
        ((s.tableData.map (fun row => row.eraseIdx i)).headD []).length = m := by
      cases hd : s.tableData with
      | nil => exact absurd hd hne
      | cons r rs =>
          have hrmem : r ∈ s.tableData := by rw [hd]; simp
          simpa [List.headD] using hrowlen r hrmem
    refine ⟨by simpa using hpos, ?_, ?_⟩
    · rw [hheadnew, hm]; split <;> omega
    · intro r2 hr2
      obtain ⟨r, hr, hr2eq⟩ := List.mem_map.mp hr2
      rw [hheadnew, ← hr2eq]
      exact hrowlen r hr
  · rw [if_neg hlen]; exact h

lemma applyEditOps_rectInv (ops : List EditOp) :
    ∀ (s : EditableTableState), RectInv s → RectInv (applyEditOps s ops) := by
  induction ops with
  | nil => intro s h; exact h
  | cons op rest ih =>
      intro s h
      cases op with
      | row i => exact ih _ (removeRow_rectInv s i h)
      | col i => exact ih _ (removeColumn_rectInv s i h)

/-- Claim C1: for every list of word boxes and every tolerance,
cluster_words_into_rows computes each word's vertical midpoint
(y0 + y1) / 2, stably sorts the words by that midpoint, and walks the
sorted sequence starting a new row exactly when the current row's
running-average midpoint differs from the incoming word's midpoint by
more than the tolerance, otherwise folding the word into the current
row and updating the running average (the comparison is against the
running average of all words of the row so far, never against the
first word's midpoint alone): the implementation coincides with the
clustering described in exactly those terms. -/
theorem C1_cluster_walks_by_running_average (words : List WordBox) (tolerance : Coord) :
    cluster_words_into_rows words tolerance =
      cluster_words_into_rows_spec words tolerance := by
  unfold cluster_words_into_rows cluster_words_into_rows_spec
  by_cases h : words = []
  · rw [if_pos h, if_pos h]
  · rw [if_neg h, if_neg h]
    rw [clusterWalk_eq_spec tolerance _ [] [] none (Or.inl ⟨rfl, rfl⟩)]

/-- Claim C4: for every list of word boxes, the rows returned by
cluster_words_into_rows form a partition of the input: the underlying
word boxes of all rows together are a permutation of the input (no
word box is dropped or duplicated, each appears in exactly one row),
and no returned row is empty. -/
theorem C4_cluster_rows_partition (words : List WordBox) (tolerance : Coord) :
    ((cluster_words_into_rows words tolerance).flatten.map MidWord.word).Perm words ∧
      ∀ r ∈ cluster_words_into_rows words tolerance, r ≠ [] := by
  unfold cluster_words_into_rows
  by_cases h : words = []
  · subst h; simp
  · rw [if_neg h]
    constructor
    · have h1 : ((stableSortByKey rowKey
          (clusterWalk tolerance (stableSortByKey midKey (words.map addMidY)) [] [] none)).flatten).Perm
          ((clusterWalk tolerance (stableSortByKey midKey (words.map addMidY)) [] [] none).flatten) :=
        List.Perm.flatten (perm_stableSortByKey rowKey _)
      have h2 : ((clusterWalk tolerance
          (stableSortByKey midKey (words.map addMidY)) [] [] none).flatten).Perm
          (stableSortByKey midKey (words.map addMidY)) := by
        simpa using clusterWalk_flatten_perm tolerance
          (stableSortByKey midKey (words.map addMidY)) [] [] none
      have h3 : (stableSortByKey midKey (words.map addMidY)).Perm (words.map addMidY) :=
        perm_stableSortByKey midKey _
      have h4 := ((h1.trans h2).trans h3).map MidWord.word
      refine h4.trans ?_
      rw [List.map_map]
      have hid : (MidWord.word ∘ addMidY) = id := funext (fun w => rfl)
      rw [hid, List.map_id]
    · intro r hr
      have hmem : r ∈ clusterWalk tolerance
          (stableSortByKey midKey (words.map addMidY)) [] [] none :=
        ((perm_stableSortByKey rowKey _).mem_iff).mp hr
      exact clusterWalk_ne_nil tolerance _ [] [] none (by simp) r hmem

/-- Claim C7: the row clustering is deterministic: two runs of
cluster_words_into_rows on the same word list with the same tolerance
yield identical row partitions in every respect the claim names: the
outputs are equal, the two runs agree on the number of rows (the row
boundaries), and the row at each position, with its within-row
left-to-right order, is the same word-for-word on both runs.  This
holds because every step of the source is a deterministic function of
the input: the midpoint copies, the stable sort by mid_y, the
tolerance walk and the two further stable sorts introduce no source of
variation between runs, which the pure embedding makes exact. -/
theorem C7_cluster_rows_deterministic (ws1 ws2 : List WordBox)
    (tol1 tol2 : Coord) (hws : ws1 = ws2) (htol : tol1 = tol2) :
    cluster_words_into_rows ws1 tol1 = cluster_words_into_rows ws2 tol2 ∧
      (cluster_words_into_rows ws1 tol1).length =
        (cluster_words_into_rows ws2 tol2).length ∧
      ∀ i : Nat,
        (cluster_words_into_rows ws1 tol1).getD i [] =
          (cluster_words_into_rows ws2 tol2).getD i [] := by
  subst hws; subst htol
  exact ⟨rfl, rfl, fun i => rfl⟩

/-- Witness for C7 at a concrete two-word page with tolerance 2:
both runs agree on the whole output and on every row position. -/
theorem C7_cluster_rows_deterministic_witness :
    cluster_words_into_rows
        [⟨"Date", 0, 10, 20, 12, 1⟩, ⟨"Amount", 30, 10, 50, 12, 1⟩] 2 =
      cluster_words_into_rows
        [⟨"Date", 0, 10, 20, 12, 1⟩, ⟨"Amount", 30, 10, 50, 12, 1⟩] 2 ∧
      (cluster_words_into_rows
        [⟨"Date", 0, 10, 20, 12, 1⟩, ⟨"Amount", 30, 10, 50, 12, 1⟩] 2).getD 0 [] =
        (cluster_words_into_rows
          [⟨"Date", 0, 10, 20, 12, 1⟩, ⟨"Amount", 30, 10, 50, 12, 1⟩] 2).getD 0 [] :=
  ⟨(C7_cluster_rows_deterministic _ _ 2 2 rfl rfl).1,
    (C7_cluster_rows_deterministic _ _ 2 2 rfl rfl).2.2 0⟩

/-- Counterexample for claim C2: on a page whose text extraction
raises, is_digital_page does not propagate the error; it swallows the
exception and returns False (scanned). -/
theorem C2_counterexample :
    is_digital_page (Except.error ⟨"corrupt page"⟩) = Except.ok false ∧
      is_digital_page (Except.error ⟨"corrupt page"⟩) ≠
        Except.error ⟨"corrupt page"⟩ := by
  constructor
  · rfl
  · intro h
    have h2 : (Except.ok false : Except PyError Bool) =
        Except.error ⟨"corrupt page"⟩ := h
    exact Except.noConfusion h2

/-- Claim C2 (amended): for every page input on which embedded-text
extraction throws, is_digital_page catches the exception and returns
False (the page is classified as scanned); no error is propagated to
the caller. -/
theorem C2_classifier_swallows_errors (e : PyError) :
    is_digital_page (Except.error e) = Except.ok false := rfl

/-- Counterexample for claim C3: with the OCR dependency absent
(docTR unavailable) and one scanned page whose image is available,
extract_all_words does not fall back to an empty word list: the raised
exception aborts the whole extraction. -/
theorem C3_counterexample :
    extract_all_words true false [(false, [])] (Except.ok [Except.ok []]) ≠
      Except.ok [] := by
  intro h
  rw [show extract_all_words true false [(false, [])] (Except.ok [Except.ok []]) =
      Except.error ⟨"Error extracting all words: docTR not available for OCR processing"⟩
    from rfl] at h
  simp at h

/-- Claim C3 (amended): when the OCR or rasterization dependency is
absent the operations fail by raising a plain exception carrying a
descriptive message (no dedicated CapabilityUnavailable type exists),
and the caller extract_all_words does not fall back to an empty word
list: it catches the exception and re-raises it wrapped in the message
shown, aborting the multi-page extraction. -/
theorem C3_missing_dependency_aborts :
    (∀ image : OcrImage,
        extract_words_scanned false image =
          Except.error ⟨"docTR not available for OCR processing"⟩) ∧
    (∀ conversion : Except PyError (List OcrImage),
        convert_pdf_to_images false conversion =
          Except.error ⟨"pdf2image not available for PDF to image conversion"⟩) ∧
    (∀ (digitalWords : List WordBox) (rest : List (Bool × List WordBox))
        (img : OcrImage) (imgs : List OcrImage),
        extract_all_words true false ((false, digitalWords) :: rest)
            (Except.ok (img :: imgs)) =
          Except.error
            ⟨"Error extracting all words: docTR not available for OCR processing"⟩) := by
  refine ⟨fun image => rfl, fun conversion => rfl, ?_⟩
  intro digitalWords rest img imgs
  simp [extract_all_words, extractAllWordsLoop, extract_words_scanned,
    convert_pdf_to_images]

/-- Claim C5: a completed rectangle selection whose width is below 10
points or whose height is below 10 points is rejected as too small
before any extraction work: handleOverlayMouseUp produces the
too-small error outcome and no extraction request. -/
theorem C5_small_selection_rejected (s e : SelPoint) (d : PageDims)
    (h : |e.x - s.x| < 10 ∨ |e.y - s.y| < 10) :
    handleOverlayMouseUp true (some s) (some e) (some d) =
      SelectionOutcome.selectionTooSmall := by
  have hred : handleOverlayMouseUp true (some s) (some e) (some d) =
      if |e.x - s.x| < 10 ∨ |e.y - s.y| < 10 then SelectionOutcome.selectionTooSmall
      else SelectionOutcome.extractRequest (min s.x e.x) (min s.y e.y)
        |e.x - s.x| |e.y - s.y| := rfl
  rw [hred, if_pos h]

/-- Witness for C5: a 5 by 20 point drag is rejected as too small. -/
theorem C5_small_selection_rejected_witness :
    handleOverlayMouseUp true (some ⟨0, 0⟩) (some ⟨5, 20⟩) (some ⟨600, 800⟩) =
      SelectionOutcome.selectionTooSmall :=
  C5_small_selection_rejected ⟨0, 0⟩ ⟨5, 20⟩ ⟨600, 800⟩
    (Or.inl (by rw [show (5 : Coord) - 0 = 5 by norm_num]; rw [abs_of_nonneg] <;> norm_num))

/-- Counterexample for claim C6: not every table maintained by the
system keeps its rows equal in length to the headers list: merging the
extracted table with headers B and one data row x into an existing
table with headers A and two rows leaves the second merged row with one
cell while the merged headers list has two entries, and nothing pads
it. -/
theorem C6_counterexample :
    ((handleAddToTable ["A"] [["a"], ["b"]] ["B"] [["x"]]).2.getD 1 []).length ≠
      (handleAddToTable ["A"] [["a"], ["b"]] ["B"] [["x"]]).1.length := by
  decide

/-- Claim C6 (amended): the two cited padding operations do establish
the equal-length shape: every row produced by the multi-page column
transpose has exactly one cell per column (missing cells filled with
the empty string), and the DataTable fixup effect (which runs when the
header count is positive and at least one row exists) makes every
row's cell count equal to the header count; but the index-aligned
merge of handleAddToTable can still leave rows shorter than the
headers list, so the invariant does not hold of every table the system
maintains. -/
theorem C6_padding_schemes_rectangular :
    (∀ (arrays : List (List String)) (r : List String),
        r ∈ transpose arrays → r.length = arrays.length) ∧
    (∀ (headerCount : Nat) (rows : List (List String)) (r : List String),
        0 < headerCount → rows ≠ [] → r ∈ fixRowStructure headerCount rows →
        r.length = headerCount) := by
  constructor
  · intro arrays r hr
    exact transpose_row_length arrays r hr
  · intro headerCount rows r _ _ hr
    obtain ⟨cells, _, hc⟩ := List.mem_map.mp hr
    rw [← hc]
    exact fixRowCells_length headerCount cells

/-- Witness for C6 (amended) at a concrete three-cell row fixed up to a
two-column table. -/
theorem C6_padding_schemes_rectangular_witness :
    ((fixRowStructure 2 [["a", "b", "c"]]).getD 0 []).length = 2 :=
  C6_padding_schemes_rectangular.2 2 [["a", "b", "c"]] _
    (by decide) (by decide) (by decide)

/-- Claim C8: merging an extracted table into an already non-empty
table with handleAddToTable appends the extracted headers as new
columns and aligns extracted data rows to existing rows by index; the
merged row count equals the existing row count (extracted rows with an
index at or beyond it are silently discarded), and each merged row is
the existing row followed by the extracted row of the same index (or
nothing when there is none). -/
theorem C8_add_to_table_merge (th : List String) (tr : List (List String))
    (eh : List String) (ed : List (List String)) (hth : th ≠ []) :
    (handleAddToTable th tr eh ed).1 = th ++ eh ∧
      (handleAddToTable th tr eh ed).2.length = tr.length ∧
      ∀ i, i < tr.length →
        (handleAddToTable th tr eh ed).2.getD i [] =
          tr.getD i [] ++ ed.getD i [] := by
  have hlen : ¬ th.length = 0 := by
    intro hcon
    exact hth (List.length_eq_zero.mp hcon)
  unfold handleAddToTable
  rw [if_neg hlen]
  refine ⟨rfl, ?_, ?_⟩
  · simp [List.enum_length]
  · intro i hi
    exact mergedRow_getD tr ed i hi

/-- Witness for C8 at a concrete one-row merge. -/
theorem C8_add_to_table_merge_witness :
    (handleAddToTable ["A"] [["a"]] ["B"] [["x"]]).2.getD 0 [] =
      [["a"]].getD 0 [] ++ [["x"]].getD 0 [] :=
  (C8_add_to_table_merge ["A"] [["a"]] ["B"] [["x"]] (by decide)).2.2 0 (by decide)

/-- Counterexample for claim C9: a cell whose content is a single
space has empty trimmed content, which does contain the empty trimmed
text of an empty dropped block, yet the drop changes the cell content
from the space to the empty string. -/
theorem C9_counterexample :
    includesSeq (jsTrim [' ']) (jsTrim ([] : List Char)) = true ∧
      dropSingleBlock [' '] [] ≠ [' '] := by
  decide

/-- Claim C9 (amended): dropping a single text block onto a cell whose
existing trimmed content is non-empty and already contains the block's
trimmed text as a substring leaves the cell content unchanged; and in
all cases dropping the same block onto the same cell twice has the same
effect as dropping it once (the drop operation is idempotent per
cell). -/
theorem C9_drop_idempotent :
    (∀ cellContent itemText : List Char,
        jsTrim cellContent ≠ [] →
        includesSeq (jsTrim cellContent) (jsTrim itemText) = true →
        dropSingleBlock cellContent itemText = cellContent) ∧
    (∀ cellContent itemText : List Char,
        dropSingleBlock (dropSingleBlock cellContent itemText) itemText =
          dropSingleBlock cellContent itemText) := by
  constructor
  · intro c t hne hinc
    unfold dropSingleBlock
    rw [if_neg (by simp [hinc]), if_pos ⟨hne, hinc⟩]
  · intro c t
    by_cases h1 : jsTrim c ≠ [] ∧ ¬ (includesSeq (jsTrim c) (jsTrim t) = true)
    · have hnt : jsTrim t ≠ [] := by
        intro hnil
        exact h1.2 (by rw [hnil]; exact includesSeq_nil_needle (jsTrim c))
      have hc1 : dropSingleBlock c t = jsTrim c ++ '\n' :: jsTrim t := by
        unfold dropSingleBlock
        rw [if_pos h1]
      rw [hc1]
      have htrim : jsTrim (jsTrim c ++ '\n' :: jsTrim t) =
          jsTrim c ++ '\n' :: jsTrim t := jsTrim_sep_append c t h1.1 hnt
      have hne2 : jsTrim (jsTrim c ++ '\n' :: jsTrim t) ≠ [] := by
        rw [htrim]
        cases hx : jsTrim c with
        | nil => exact absurd hx h1.1
        | cons a b => simp
      have hinc2 : includesSeq (jsTrim (jsTrim c ++ '\n' :: jsTrim t))
          (jsTrim t) = true := by
        rw [htrim]
        exact includesSeq_sep_suffix (jsTrim c) (jsTrim t)
      unfold dropSingleBlock
      rw [if_neg (by simp [hinc2]), if_pos ⟨hne2, hinc2⟩]
    · by_cases h2 : jsTrim c ≠ [] ∧ includesSeq (jsTrim c) (jsTrim t) = true
      · have hc1 : dropSingleBlock c t = c := by
          unfold dropSingleBlock
          rw [if_neg h1, if_pos h2]
        rw [hc1]
        exact hc1
      · have hc1 : dropSingleBlock c t = jsTrim t := by
          unfold dropSingleBlock
          rw [if_neg h1, if_neg h2]
        rw [hc1]
        have htrimnt : jsTrim (jsTrim t) = jsTrim t := jsTrim_idem t
        by_cases hnt : jsTrim t = []
        · rw [hnt]
          have hj : jsTrim ([] : List Char) = [] := rfl
          unfold dropSingleBlock
          rw [if_neg (by simp [hj]), if_neg (by simp [hj])]
          exact hnt
        · unfold dropSingleBlock
          rw [if_neg (by simp [htrimnt, includesSeq_self]),
            if_pos ⟨by rw [htrimnt]; exact hnt,
              by rw [htrimnt]; exact includesSeq_self (jsTrim t)⟩]

/-- Witness for C9 (amended): dropping the block ab onto a cell already
holding ab leaves it unchanged. -/
theorem C9_drop_idempotent_witness :
    dropSingleBlock ['a', 'b'] ['a', 'b'] = ['a', 'b'] :=
  C9_drop_idempotent.1 ['a', 'b'] ['a', 'b'] (by decide) (by decide)

/-- Claim C10: the editable table never becomes empty through removal
operations: removeRow is a no-op when the table has exactly one row,
removeColumn is a no-op when the first row has exactly one cell, and
from any rectangular state with at least one row and one column (the
component starts as a 3 by 3 grid), any sequence of removeRow and
removeColumn calls leaves at least one row and at least one column. -/
theorem C10_removals_keep_table_nonempty :
    (∀ (s : EditableTableState) (i : Nat),
        s.tableData.length = 1 → removeRow s i = s) ∧
    (∀ (s : EditableTableState) (i : Nat),
        (s.tableData.headD []).length = 1 → removeColumn s i = s) ∧
    (∀ (s : EditableTableState) (ops : List EditOp), RectInv s →
        0 < (applyEditOps s ops).tableData.length ∧
          0 < ((applyEditOps s ops).tableData.headD []).length) := by
  refine ⟨?_, ?_, ?_⟩
  · intro s i h
    unfold removeRow
    rw [if_neg (by omega)]
  · intro s i h
    unfold removeColumn
    rw [if_neg (by omega)]
  · intro s ops h
    obtain ⟨h1, h2, _⟩ := applyEditOps_rectInv ops s h
    exact ⟨h1, h2⟩

/-- Witness for C10: the initial 3 by 3 grid keeps at least one row and
one column under a concrete removal sequence. -/
theorem C10_removals_keep_table_nonempty_witness :
    0 < (applyEditOps ⟨[["", "", ""], ["", "", ""], ["", "", ""]]⟩
        [EditOp.row 0, EditOp.col 2, EditOp.row 5, EditOp.col 0]).tableData.length ∧
      0 < ((applyEditOps ⟨[["", "", ""], ["", "", ""], ["", "", ""]]⟩
        [EditOp.row 0, EditOp.col 2, EditOp.row 5, EditOp.col 0]).tableData.headD
          []).length :=
  C10_removals_keep_table_nonempty.2.2
    ⟨[["", "", ""], ["", "", ""], ["", "", ""]]⟩
    [EditOp.row 0, EditOp.col 2, EditOp.row 5, EditOp.col 0] (by decide)
